import Mathlib

/-!
Verification of the core data pipeline of the sales-analysis dashboard
(`src/streamlit_app.py`) against its natural-language specification.

The Python code works on pandas dataframes of raw sales line items.  We give a
shallow embedding: strings become `List Char`, monetary floats become exact
rationals `ℚ`, dataframe columns become lists, and pandas operations
(groupby-sum, series alignment, `sort_values`, outer merge, `fillna`) become
the explicit list functions below, each annotated with the source lines it
models.
-/

/-- Strings are modelled as lists of characters (Python `str`). -/
abbrev Str := List Char

/-- Python whitespace characters as recognised by `str.strip()` (ASCII set). -/
def pyWs (c : Char) : Bool :=
  c = ' ' || c = '\t' || c = '\n' || c = '\r' || c = '\x0b' || c = '\x0c'

/-- Python `str.strip()`: drop whitespace from both ends. -/
def pyStrip (l : Str) : Str :=
  ((l.dropWhile pyWs).reverse.dropWhile pyWs).reverse

/-- Characters matched by the character class `[\d,]` in the amount-cleaning
regex of `clean_price` (src/streamlit_app.py lines 57-58): a decimal digit or
a thousands-separator comma.  Python's `\d` also matches non-ASCII Unicode
digits; the data handled by the app is ASCII-numeric, so ASCII digits suffice. -/
def isRunChar (c : Char) : Bool := c.isDigit || c = ','

/-- The capture group of `re.search(r'\(?([\d,]+)\)?', s)` in `clean_price`
(src/streamlit_app.py line 58): the leftmost maximal run of digits/commas, or
`none` when the string contains no such character.  The optional parentheses
in the pattern never change the captured group, only the overall match span. -/
def firstRun : Str → Option Str
  | [] => none
  | c :: l => if isRunChar c then some (c :: l.takeWhile isRunChar) else firstRun l

/-- Numeric value of a digit character. -/
def digVal (c : Char) : ℕ := c.toNat - 48

/-- Value of a string of decimal digits, most significant first. -/
def natOfDigits (l : Str) : ℕ := l.foldl (fun n c => 10 * n + digVal c) 0

/-- A Python float value as `float(s)` can produce it: a finite number
(modelled as an exact rational), a signed infinity, or NaN. -/
inductive PyFloat where
  | finite (q : ℚ)
  | inf (neg : Bool)
  | nan
  deriving DecidableEq, Repr

/-- Negation of a Python float, as the leading `-` sign applies it:
`float("-inf")` is negative infinity and `float("-nan")` is NaN. -/
def PyFloat.neg : PyFloat → PyFloat
  | .finite q => .finite (-q)
  | .inf b => .inf (!b)
  | .nan => .nan

/-- ASCII lowercasing, as `float()` applies when recognising its special
literals case-insensitively. -/
def lowAscii (c : Char) : Char :=
  if 65 ≤ c.toNat ∧ c.toNat ≤ 90 then Char.ofNat (c.toNat + 32) else c

/-- The special literals accepted by Python `float()` besides numerals: the
case-insensitive `inf`, `infinity` and `nan` (sign handled by the caller). -/
def pyFloatLit (l : Str) : Option PyFloat :=
  if l.map lowAscii = "inf".data ∨ l.map lowAscii = "infinity".data then
    some (.inf false)
  else if l.map lowAscii = "nan".data then some .nan
  else none

/-- Models the unsigned body of Python `float(s)`: digits with an optional
fractional part yield a finite value; a digit-free body is accepted exactly
when it is one of the special literals `inf`/`infinity`/`nan`; anything else
is `none` (Python raises `ValueError`).  Exponent notation is outside the
model, but inside `clean_price` the fallback branch only ever receives
digit-free strings — where exponent forms are impossible — and the digit-run
branch only pure digit strings, so within `clean_price` this model agrees
with CPython `float()` exactly (up to exact-rational arithmetic in place of
IEEE rounding and overflow). -/
def pyFloatCore (l : Str) : Option PyFloat :=
  let ip := l.takeWhile (fun c => c.isDigit)
  let r1 := l.dropWhile (fun c => c.isDigit)
  if r1 = [] then
    (if ip = [] then none else some (.finite ((natOfDigits ip : ℚ))))
  else if r1.head? = some '.' then
    let r2 := r1.tail
    let fp := r2.takeWhile (fun c => c.isDigit)
    let r3 := r2.dropWhile (fun c => c.isDigit)
    if r3 = [] then
      if ip = [] ∧ fp = [] then none
      else some (.finite ((natOfDigits (ip ++ fp) : ℚ) / (10 : ℚ) ^ fp.length))
    else none
  else if ip = [] then pyFloatLit l
  else none

/-- Python `float(s)` including the leading sign and whitespace stripping. -/
def pyFloat (l : Str) : Option PyFloat :=
  let t := pyStrip l
  if t.head? = some '-' then (pyFloatCore t.tail).map PyFloat.neg
  else if t.head? = some '+' then pyFloatCore t.tail
  else pyFloatCore t

/-- Models `clean_price` (src/streamlit_app.py lines 57-65, repeated at 291-300): take
the first digit/comma run if any, strip commas, parse as float, and fall back
to `0` when the parse fails.  This is the spec's `normalize_amount`. -/
def cleanPrice (l : Str) : PyFloat :=
  let x := match firstRun l with
    | some g => g
    | none => l
  let x2 := x.filter (fun c => c ≠ ',')
  (pyFloat x2).getD (.finite 0)

/-- The capture group of `re.search(r'\(([^)]+)\)', s)` in `extract_paren`
(src/streamlit_app.py lines 69-71): at the leftmost position where a match
begins, the nonempty text strictly between a `(` and the next `)`.  When the
text after a `(` up to the next `)` is empty, or no `)` follows, the regex
engine resumes scanning at the next position. -/
def parenGroup : Str → Option Str
  | [] => none
  | c :: r =>
    if c = '(' then
      let run := r.takeWhile (fun d => d ≠ ')')
      if run ≠ [] ∧ run.length < r.length then some run else parenGroup r
    else parenGroup r

/-- Models `extract_paren` (src/streamlit_app.py lines 69-71): the first parenthesized
group trimmed, or the sentinel `"기타"` ("other") when there is none.  This is
the spec's `group_key`. -/
def extractParen (l : Str) : Str :=
  match parenGroup l with
  | some g => pyStrip g
  | none => "기타".data

/-- The capture group of `re.match(r"([^(]+)", s)`: the maximal prefix of
characters other than `(`.  `re.match` anchors at the start, so the match
fails (empty capture here) exactly when the string is empty or starts
with `(`. -/
def matchNonParen : Str → Str
  | [] => []
  | c :: l => if c = '(' then [] else c :: matchNonParen l

/-- Models `extract_prefix` (src/streamlit_app.py lines 194-199, repeated at 267-272,
374-379, 573-578): the sentinel `"기타"` for blank input or a failed match,
otherwise the text before the first `(`, trimmed.  This is the spec's
`prefix_key`.  String cells are never pandas `NaN`, so the `pd.isna` guard
reduces to the blank-string check. -/
def extractPrefix (l : Str) : Str :=
  if pyStrip l = [] then "기타".data
  else
    let m := matchNonParen l
    if m = [] then "기타".data else pyStrip m

/-- Codepoint-wise lexicographic order on strings, as used by Python `<` on
`str` and by pandas when sorting string index labels. -/
def strLtB : Str → Str → Bool
  | [], [] => false
  | [], _ :: _ => true
  | _ :: _, [] => false
  | a :: as, b :: bs =>
    if a.toNat < b.toNat then true
    else if b.toNat < a.toNat then false
    else strLtB as bs

/-- Stable insertion into a sorted list: `a` is placed before the first
element `b` with `lt a b`, hence after all elements it ties with. -/
def insertBy (lt : α → α → Bool) (a : α) : List α → List α
  | [] => [a]
  | b :: l => if lt b a then b :: insertBy lt a l else a :: b :: l

/-- Stable insertion sort, modelling pandas sorts (pandas' default quicksort
agrees with it whenever the sort keys are distinct, which holds at every
concrete input used below). -/
def sortBy (lt : α → α → Bool) : List α → List α
  | [] => []
  | a :: l => insertBy lt a (sortBy lt l)

/-- Ascending sort of string keys, as pandas applies to a groupby index and to
the sorted union produced by index alignment and outer merges. -/
def sortKeys (l : List Str) : List Str := sortBy strLtB l

/-- Association-list lookup, modelling indexing a pandas Series by label. -/
def lookupQ (k : Str) : List (Str × ℚ) → Option ℚ
  | [] => none
  | (k2, v) :: r => if k2 = k then some v else lookupQ k r

/-- Sum of the amounts of the records carrying key `k`. -/
def sumAmt (k : Str) (rows : List (Str × ℚ)) : ℚ :=
  ((rows.filter (fun r => decide (r.1 = k))).map (fun r => r.2)).sum

/-- Models `df.groupby(key)[measure].sum()` (src/streamlit_app.py lines 138, 140-141,
203, 205-206, 251, 253-254): one `(key, sum)` pair per distinct key, with the
index sorted ascending as pandas produces it.  A record is the pair of its
grouping key and its measure value. -/
def groupSum (rows : List (Str × ℚ)) : List (Str × ℚ) :=
  (sortKeys (rows.map (fun r => r.1)).dedup).map (fun k => (k, sumAmt k rows))

/-- Pandas `Series + Series` (src/streamlit_app.py lines 138, 203, 251, 275):
index alignment over the sorted union of the two label sets; a label present
in only one operand gets `value + NaN = NaN`, modelled as `none`. -/
def seriesAdd (a b : List (Str × ℚ)) : List (Str × Option ℚ) :=
  (sortKeys ((a.map (fun r => r.1)) ++ (b.map (fun r => r.1))).dedup).map
    (fun k =>
      (k, match lookupQ k a, lookupQ k b with
          | some x, some y => some (x + y)
          | _, _ => none))

/-- Models `Series.sort_values(ascending=False)` on a series that may hold NaN
(src/streamlit_app.py lines 139, 204, 252, 276): non-NaN entries sorted by
value descending, NaN entries after them in their original index order
(`na_position` defaults to `"last"`). -/
def sortValuesDesc (s : List (Str × Option ℚ)) : List (Str × Option ℚ) :=
  sortBy (fun x y => decide ((y.2.getD 0) < (x.2.getD 0)))
      (s.filter (fun e => e.2.isSome))
    ++ s.filter (fun e => e.2.isNone)

/-- Models `group_sum.sort_values(ascending=False).head(10).index.tolist()`
(src/streamlit_app.py lines 138-139, 203-204, 251-252, 275-276): the ten
labels ranked first, NaN-summed labels last. -/
def top10 (prev curr : List (Str × ℚ)) : List Str :=
  ((sortValuesDesc (seriesAdd (groupSum prev) (groupSum curr))).map
    (fun e => e.1)).take 10

/-- One output row of the period comparator: previous/current sums for a key
with their difference and percentage change. -/
structure ComparisonRow where
  key : Str
  curr : ℚ
  prev : ℚ
  delta : ℚ
  rate : ℚ
  deriving DecidableEq, Repr

/-- The period comparator (src/streamlit_app.py lines 251-257, same shape at
138-143, 203-208 and 275-281): restrict each period's records to the top-10
keys, group-sum each side, outer-merge on the key (pandas sorts the join key
ascending), `fillna(0)` for a side where the key is absent, then add the
`증감액` (delta) and `증감률` (delta rate) columns, the latter with
`.replace(0, 1)` on the previous-period denominator. -/
def compareRows (dfPrev dfCurr : List (Str × ℚ)) : List ComparisonRow :=
  let tops := top10 dfPrev dfCurr
  let prevG := groupSum (dfPrev.filter (fun r => decide (r.1 ∈ tops)))
  let currG := groupSum (dfCurr.filter (fun r => decide (r.1 ∈ tops)))
  let keys := sortKeys ((currG.map (fun r => r.1)) ++ (prevG.map (fun r => r.1))).dedup
  keys.map (fun k =>
    let c := (lookupQ k currG).getD 0
    let p := (lookupQ k prevG).getD 0
    let d := c - p
    { key := k, curr := c, prev := p, delta := d
      rate := d / (if p = 0 then 1 else p) * 100 })

/-- One normalized line item as the report-metrics assembler consumes it:
its `분류그룹` key, its `주문수` and its normalized `실판매금액`. -/
structure SalesRecord where
  group : Str
  orders : ℚ
  amount : ℚ
  deriving DecidableEq, Repr

/-- Models `df_curr["실판매금액"].sum()` (src/streamlit_app.py line 438). -/
def totalSales (recs : List SalesRecord) : ℚ :=
  (recs.map (fun r => r.amount)).sum

/-- Models `df_curr["주문수"].sum()` (src/streamlit_app.py line 439). -/
def totalOrders (recs : List SalesRecord) : ℚ :=
  (recs.map (fun r => r.orders)).sum

/-- Models `avg_order_value = total_sales / total_orders if total_orders > 0 else 0`
(src/streamlit_app.py line 440). -/
def avgOrderValue (recs : List SalesRecord) : ℚ :=
  if 0 < totalOrders recs then totalSales recs / totalOrders recs else 0

/-- Models `df_curr.groupby("분류그룹")["실판매금액"].agg(['sum', 'count'])`
(src/streamlit_app.py line 453): per key, the amount sum and the record
count, with the key index sorted ascending. -/
def catAgg (recs : List SalesRecord) : List (Str × ℚ × ℕ) :=
  (sortKeys (recs.map (fun r => r.group)).dedup).map
    (fun k =>
      (k, ((recs.filter (fun r => decide (r.group = k))).map (fun r => r.amount)).sum,
          (recs.filter (fun r => decide (r.group = k))).length))

/-- Models `top_categories = ... .sort_values('매출액', ascending=False).head(5)`
(src/streamlit_app.py line 455). -/
def topCategories (recs : List SalesRecord) : List (Str × ℚ × ℕ) :=
  (sortBy (fun a b => decide (b.2.1 < a.2.1)) (catAgg recs)).take 5

/-- Models `total_top5_sales = top_categories['매출액'].sum()`
(src/streamlit_app.py line 458). -/
def totalTop5Sales (recs : List SalesRecord) : ℚ :=
  ((topCategories recs).map (fun e => e.2.1)).sum

/-- Float division as numpy performs it: a zero denominator yields NaN or
infinity, i.e. no real number, modelled as `none`. -/
def fdiv (a b : ℚ) : Option ℚ :=
  if b = 0 then none else some (a / b)

/-- Models `sales_ratio = (total_top5_sales / total_sales) * 100`
(src/streamlit_app.py line 459): note the division carries no zero guard. -/
def salesRatio (recs : List SalesRecord) : Option ℚ :=
  (fdiv (totalTop5Sales recs) (totalSales recs)).map (fun q => q * 100)

/-- A decoded tabular input as handed over by the file-reading collaborator:
named columns of string cells, all of length `nrows`. -/
structure Table where
  nrows : ℕ
  cols : List (String × List Str)
  deriving Repr, DecidableEq

/-- Column lookup by name, modelling `col in df.columns` / `df[col]`. -/
def lookupCol (n : String) : List (String × List Str) → Option (List Str)
  | [] => none
  | (m, v) :: r => if m = n then some v else lookupCol n r

/-- Models `required_cols` of `load_and_preprocess_from_path`
(src/streamlit_app.py line 45), in the order the loop inspects them. -/
def requiredCols : List String :=
  ["분류명", "상품명", "주문수", "실판매금액", "지점명", "월"]

/-- Models `df[col] = value` for a scalar: a new column holding the value in every
row. -/
def addCol (t : Table) (n : String) (v : Str) : Table :=
  ⟨t.nrows, t.cols ++ [(n, List.replicate t.nrows v)]⟩

/-- The required-column completion loop of `load_and_preprocess_from_path`
(src/streamlit_app.py lines 46-54): a missing `지점명` is filled with the
sentinel `미지정지점`, a missing `월` with the supplied period label, and any
other missing required column aborts the load with `none` (the function
returns `None` after `st.error`). -/
def fillCols (label : Str) : List String → Table → Option Table
  | [], t => some t
  | c :: cs, t =>
    if (lookupCol c t.cols).isSome then fillCols label cs t
    else if c = "지점명" then fillCols label cs (addCol t c "미지정지점".data)
    else if c = "월" then fillCols label cs (addCol t c label)
    else none

/-- The preprocessed result of a successful load: the completed table together
with the normalized `실판매금액` column and the derived `분류그룹` column. -/
structure Loaded where
  table : Table
  amounts : List PyFloat
  groups : List Str
  deriving Repr, DecidableEq

/-- The loader core of `load_and_preprocess_from_path`
(src/streamlit_app.py lines 44-74), after the file has been decoded into a
table: complete the required columns (aborting when a non-defaultable one is
missing), normalize every `실판매금액` cell with `clean_price` and derive the
`분류그룹` key of every `분류명` cell with `extract_paren`.  On the success
path both columns are present, so the `getD []` defaults never fire. -/
def load (t : Table) (label : Str) : Option Loaded :=
  (fillCols label requiredCols t).map (fun t2 =>
    { table := t2
      amounts := ((lookupCol "실판매금액" t2.cols).getD []).map cleanPrice
      groups := ((lookupCol "분류명" t2.cols).getD []).map extractParen })

/-- Fuelled worker for the decimal rendering of a natural number; the fuel is
only a structural-recursion bound and never runs out at the call below. -/
def natDigitsAux : ℕ → ℕ → Str
  | 0, _ => []
  | fuel + 1, n =>
    if n < 10 then [Char.ofNat (48 + n)]
    else natDigitsAux fuel (n / 10) ++ [Char.ofNat (48 + n % 10)]

/-- Decimal digit string of a natural number, most significant digit first. -/
def natDigits (n : ℕ) : Str := natDigitsAux (n + 1) n

/-- Fuelled worker for the base-ten logarithm. -/
def log10Aux : ℕ → ℕ → ℕ
  | 0, _ => 0
  | fuel + 1, n => if n < 10 then 0 else log10Aux fuel (n / 10) + 1

/-- Number of decimal digits of `n` minus one (floor of the base-ten
logarithm for positive `n`). -/
def log10 (n : ℕ) : ℕ := log10Aux (n + 1) n

/-- Python `str(x)` of a non-negative integral float, as produced when
`clean_price` is re-applied to an already-normalized amount column
(src/streamlit_app.py lines 291-302).  Below `1e16` CPython renders
positionally: the decimal digits followed by `.0`.  From `1e16` on it
switches to scientific notation with the shortest mantissa that round-trips;
for an exact power of ten `10^e` (exactly representable and farther than 1
from its float neighbours) that shortest mantissa is `1`, giving `"1e+<e>"`.
The scientific branch of this model is exact on powers of ten — the only
inputs at which it is used below; shortest-mantissa rendering of other large
values would require the IEEE bit-level model and is out of scope. -/
def pyFloatStr (n : ℕ) : Str :=
  if n < 10 ^ 16 then natDigits n ++ ['.', '0']
  else '1' :: 'e' :: '+' :: natDigits (log10 n)

/-- Number of distinct grouping keys that occur in both periods, i.e. keys
whose aligned combined sum in `seriesAdd` is a number rather than NaN. -/
def sharedKeyCount (p c : List (Str × ℚ)) : ℕ :=
  (((p.map (fun r => r.1)).dedup).filter
    (fun k => decide (k ∈ c.map (fun r => r.1)))).length

/-- Previous-period records of the §8 comparison scenario:
`[{group:"A", amount:100}, {group:"B", amount:50}]`. -/
def scenPrev : List (Str × ℚ) := [("A".data, 100), ("B".data, 50)]

/-- Current-period records of the §8 comparison scenario:
`[{group:"A", amount:150}, {group:"C", amount:20}]`. -/
def scenCurr : List (Str × ℚ) := [("A".data, 150), ("C".data, 20)]

/-- Ten grouping keys with amount 1 each, present in both periods. -/
def tenShared : List (Str × ℚ) :=
  [("S0".data, 1), ("S1".data, 1), ("S2".data, 1), ("S3".data, 1), ("S4".data, 1),
   ("S5".data, 1), ("S6".data, 1), ("S7".data, 1), ("S8".data, 1), ("S9".data, 1)]

/-- Current period holding the ten shared keys plus a key `Z` of amount 100
that the previous period lacks. -/
def currWithZ : List (Str × ℚ) := tenShared ++ [("Z".data, 100)]

/-- A decoded two-row table supplying the four non-defaultable columns and
neither `지점명` nor `월`. -/
def tableNoBranch : Table :=
  ⟨2, [("분류명", ["과자 (수입)".data, "음료".data]),
       ("상품명", ["A1".data, "B2".data]),
       ("주문수", ["3".data, "4".data]),
       ("실판매금액", ["1,000".data, "2,500".data])]⟩

/-- The table above with its `상품명` column removed: a non-defaultable
required column is absent. -/
def tableNoProduct : Table :=
  ⟨2, [("분류명", ["과자 (수입)".data, "음료".data]),
       ("주문수", ["3".data, "4".data]),
       ("실판매금액", ["1,000".data, "2,500".data])]⟩

/-- A fallback `Loaded` value used only to state closed corollaries. -/
def emptyLoaded : Loaded := ⟨⟨0, []⟩, [], []⟩

/-!
General lemmas about the sorting and scanning primitives.
-/

theorem insertBy_perm (lt : α → α → Bool) (a : α) (l : List α) :
    (insertBy lt a l).Perm (a :: l) := by
  induction l with
  | nil => exact List.Perm.refl _
  | cons b l ih =>
    simp only [insertBy]
    split
    · exact ((ih.cons b).trans (List.Perm.swap a b l))
    · exact List.Perm.refl _

theorem sortBy_perm (lt : α → α → Bool) (l : List α) :
    (sortBy lt l).Perm l := by
  induction l with
  | nil => exact List.Perm.refl _
  | cons a l ih =>
    exact (insertBy_perm lt a (sortBy lt l)).trans (ih.cons a)

theorem mem_sortBy {lt : α → α → Bool} {l : List α} {x : α} :
    x ∈ sortBy lt l ↔ x ∈ l :=
  (sortBy_perm lt l).mem_iff

theorem length_sortBy (lt : α → α → Bool) (l : List α) :
    (sortBy lt l).length = l.length :=
  (sortBy_perm lt l).length_eq

theorem takeWhile_all {p : α → Bool} : ∀ {l : List α},
    (∀ c ∈ l, p c = true) → l.takeWhile p = l
  | [], _ => rfl
  | c :: l, h => by
    rw [List.takeWhile_cons, if_pos (h c (List.mem_cons_self c l))]
    exact congrArg (c :: ·) (takeWhile_all (fun d hd => h d (List.mem_cons_of_mem c hd)))

theorem dropWhile_all {p : α → Bool} : ∀ {l : List α},
    (∀ c ∈ l, p c = true) → l.dropWhile p = []
  | [], _ => rfl
  | c :: l, h => by
    rw [List.dropWhile_cons, if_pos (h c (List.mem_cons_self c l))]
    exact dropWhile_all (fun d hd => h d (List.mem_cons_of_mem c hd))

theorem takeWhile_none {p : α → Bool} : ∀ {l : List α},
    (∀ c ∈ l, p c = false) → l.takeWhile p = []
  | [], _ => rfl
  | c :: l, h => by
    rw [List.takeWhile_cons, if_neg]
    simp [h c (List.mem_cons_self c l)]

theorem dropWhile_none {p : α → Bool} : ∀ {l : List α},
    (∀ c ∈ l, p c = false) → l.dropWhile p = l
  | [], _ => rfl
  | c :: l, h => by
    rw [List.dropWhile_cons, if_neg]
    simp [h c (List.mem_cons_self c l)]

theorem takeWhile_append_all {p : α → Bool} {l1 l2 : List α}
    (h : ∀ c ∈ l1, p c = true) :
    (l1 ++ l2).takeWhile p = l1 ++ l2.takeWhile p := by
  induction l1 with
  | nil => simp
  | cons c l ih =>
    rw [List.cons_append, List.takeWhile_cons, if_pos (h c (List.mem_cons_self c l))]
    rw [ih (fun d hd => h d (List.mem_cons_of_mem c hd))]
    rfl

/-!
Lemmas about the digit-run scanner and the float parser.
-/

theorem firstRun_eq_none : ∀ {l : Str}, firstRun l = none → ∀ c ∈ l, isRunChar c = false := by
  intro l
  induction l with
  | nil => intro _ c hc; cases hc
  | cons c l ih =>
    intro h d hd
    rw [firstRun] at h
    by_cases hc : isRunChar c = true
    · rw [if_pos hc] at h; cases h
    · rw [if_neg hc] at h
      rcases List.mem_cons.mp hd with rfl | hd2
      · exact Bool.not_eq_true _ ▸ (Bool.eq_false_iff.mpr hc)
      · exact ih h d hd2

theorem firstRun_all_run : ∀ {l g : Str}, firstRun l = some g → ∀ c ∈ g, isRunChar c = true := by
  intro l
  induction l with
  | nil => intro g h; cases h
  | cons c l ih =>
    intro g h d hd
    rw [firstRun] at h
    by_cases hc : isRunChar c = true
    · rw [if_pos hc] at h
      cases Option.some.inj h
      rcases List.mem_cons.mp hd with rfl | hd2
      · exact hc
      · exact List.mem_takeWhile_imp hd2
    · rw [if_neg hc] at h
      exact ih h d hd

theorem firstRun_append_run {ip rest : Str} (h1 : ip ≠ [])
    (h2 : ∀ c ∈ ip, isRunChar c = true) :
    firstRun (ip ++ rest) = some (ip ++ rest.takeWhile isRunChar) := by
  cases ip with
  | nil => exact absurd rfl h1
  | cons c ipt =>
    rw [List.cons_append, firstRun, if_pos (h2 c (List.mem_cons_self c ipt))]
    rw [takeWhile_append_all (fun d hd => h2 d (List.mem_cons_of_mem c hd))]
    rfl

theorem digit_isRunChar {c : Char} (h : c.isDigit = true) : isRunChar c = true := by
  simp [isRunChar, h]

theorem runChar_not_comma_digit {c : Char} (h1 : isRunChar c = true)
    (h2 : ¬ c = ',') : c.isDigit = true := by
  rcases Bool.or_eq_true_iff.mp h1 with h | h
  · exact h
  · exact absurd (of_decide_eq_true h) h2

theorem digit_not_ws {c : Char} (h : c.isDigit = true) : pyWs c = false := by
  cases hb : pyWs c with
  | false => rfl
  | true =>
    simp only [pyWs, Bool.or_eq_true, decide_eq_true_eq] at hb
    rcases hb with ((((rfl | rfl) | rfl) | rfl) | rfl) | rfl <;> simp at h

theorem digit_ne_minus {c : Char} (h : c.isDigit = true) : ¬ c = '-' := by
  rintro rfl; simp at h

theorem digit_ne_plus {c : Char} (h : c.isDigit = true) : ¬ c = '+' := by
  rintro rfl; simp at h

theorem pyStrip_of_all {l : Str} (h : ∀ c ∈ l, pyWs c = false) : pyStrip l = l := by
  unfold pyStrip
  rw [dropWhile_none h, dropWhile_none, List.reverse_reverse]
  intro c hc
  exact h c (List.mem_reverse.mp hc)

theorem mem_pyStrip {l : Str} {c : Char} (h : c ∈ pyStrip l) : c ∈ l := by
  unfold pyStrip at h
  have h2 := List.mem_reverse.mp h
  have h3 := (List.dropWhile_sublist pyWs).mem h2
  have h4 := List.mem_reverse.mp h3
  exact (List.dropWhile_sublist pyWs).mem h4

theorem pyFloatCore_digits {l : Str} (h1 : l ≠ [])
    (h2 : ∀ c ∈ l, c.isDigit = true) :
    pyFloatCore l = some (PyFloat.finite ((natOfDigits l : ℚ))) := by
  unfold pyFloatCore
  rw [takeWhile_all h2, dropWhile_all h2]
  simp [h1]

theorem pyFloat_digits {l : Str} (h1 : l ≠ [])
    (h2 : ∀ c ∈ l, c.isDigit = true) :
    pyFloat l = some (PyFloat.finite ((natOfDigits l : ℚ))) := by
  unfold pyFloat
  rw [pyStrip_of_all (fun c hc => digit_not_ws (h2 c hc))]
  cases l with
  | nil => exact absurd rfl h1
  | cons c r =>
    have hc := h2 c (List.mem_cons_self c r)
    rw [if_neg, if_neg]
    · exact pyFloatCore_digits h1 h2
    · simp only [List.head?_cons, Option.some.injEq]
      exact digit_ne_plus hc
    · simp only [List.head?_cons, Option.some.injEq]
      exact digit_ne_minus hc

theorem pyFloatLit_not_finite (l : Str) (q : ℚ) :
    pyFloatLit l ≠ some (PyFloat.finite q) := by
  unfold pyFloatLit
  split_ifs <;> simp

theorem pyFloatCore_noDigit_not_finite {l : Str}
    (h : ∀ c ∈ l, c.isDigit = false) (q : ℚ) :
    pyFloatCore l ≠ some (PyFloat.finite q) := by
  unfold pyFloatCore
  rw [takeWhile_none h, dropWhile_none h]
  cases l with
  | nil => simp
  | cons c r =>
    have hr2 : ∀ d ∈ r, d.isDigit = false := fun d hd => h d (List.mem_cons_of_mem c hd)
    simp only [List.head?_cons, List.tail_cons, if_neg (List.cons_ne_nil c r),
      Option.some.injEq]
    rw [takeWhile_none hr2, dropWhile_none hr2]
    by_cases hc : c = '.'
    · rw [if_pos hc]
      rcases eq_or_ne r [] with rfl | hr
      · simp
      · simp [hr]
    · rw [if_neg hc]
      simpa using pyFloatLit_not_finite (c :: r) q

theorem pyFloat_noDigit_not_finite {l : Str}
    (h : ∀ c ∈ l, c.isDigit = false) (q : ℚ) :
    pyFloat l ≠ some (PyFloat.finite q) := by
  unfold pyFloat
  have hs : ∀ c ∈ pyStrip l, c.isDigit = false := fun c hc => h c (mem_pyStrip hc)
  have htail : ∀ c ∈ (pyStrip l).tail, c.isDigit = false :=
    fun c hc => hs c ((List.tail_sublist (pyStrip l)).mem hc)
  by_cases h1 : (pyStrip l).head? = some '-'
  · rw [if_pos h1]
    intro hcon
    obtain ⟨v, hv, hneg⟩ := Option.map_eq_some'.mp hcon
    cases v with
    | finite x => exact absurd hv (pyFloatCore_noDigit_not_finite htail x)
    | inf b => simp [PyFloat.neg] at hneg
    | nan => simp [PyFloat.neg] at hneg
  · rw [if_neg h1]
    by_cases h2 : (pyStrip l).head? = some '+'
    · rw [if_pos h2]
      exact pyFloatCore_noDigit_not_finite htail q
    · rw [if_neg h2]
      exact pyFloatCore_noDigit_not_finite hs q

theorem digit_ne_comma {c : Char} (h : c.isDigit = true) : ¬ c = ',' := by
  rintro rfl; simp at h

theorem pyFloat_nil : pyFloat [] = none := by decide

theorem cleanPrice_of_run {l g : Str} (h : firstRun l = some g) :
    cleanPrice l = (pyFloat (g.filter (fun c => c ≠ ','))).getD (.finite 0) := by
  simp only [cleanPrice, h]

theorem cleanPrice_of_noRun {l : Str} (h : firstRun l = none) :
    cleanPrice l = (pyFloat (l.filter (fun c => c ≠ ','))).getD (.finite 0) := by
  simp only [cleanPrice, h]

theorem filter_comma_digits {g : Str} (hg : ∀ c ∈ g, isRunChar c = true) :
    ∀ c ∈ g.filter (fun c => c ≠ ','), c.isDigit = true := by
  intro c hc
  obtain ⟨hcg, hnc⟩ := List.mem_filter.mp hc
  exact runChar_not_comma_digit (hg c hcg) (of_decide_eq_true hnc)

theorem noDigit_of_noRun {l : Str} (hfr : firstRun l = none) :
    ∀ c ∈ l.filter (fun c => c ≠ ','), c.isDigit = false := by
  intro c hc
  have hcl : c ∈ l := (List.filter_sublist l).mem hc
  cases hd : c.isDigit with
  | false => rfl
  | true => exact absurd (digit_isRunChar hd) (by simp [firstRun_eq_none hfr c hcl])

/-- Every *finite* value `clean_price` can return is a natural number cast to
`ℚ`: the digit-run branch yields the value of a digit string and the
fallback branch yields `0` or a non-finite float (infinity or NaN, from the
special literals). -/
theorem cleanPrice_finite_nat {l : Str} {q : ℚ}
    (h : cleanPrice l = PyFloat.finite q) : ∃ n : ℕ, q = (n : ℚ) := by
  rcases hfr : firstRun l with _ | g
  · rw [cleanPrice_of_noRun hfr] at h
    rcases hp : pyFloat (l.filter (fun c => c ≠ ',')) with _ | v
    · rw [hp, Option.getD_none] at h
      exact ⟨0, by simpa using (PyFloat.finite.inj h).symm⟩
    · rw [hp, Option.getD_some] at h
      exact absurd (hp.trans (congrArg some h))
        (pyFloat_noDigit_not_finite (noDigit_of_noRun hfr) q)
  · rw [cleanPrice_of_run hfr] at h
    have hdig := filter_comma_digits (firstRun_all_run hfr)
    rcases eq_or_ne (g.filter (fun c => c ≠ ',')) [] with he | hne
    · rw [he, pyFloat_nil, Option.getD_none] at h
      exact ⟨0, by simpa using (PyFloat.finite.inj h).symm⟩
    · rw [pyFloat_digits hne hdig, Option.getD_some] at h
      exact ⟨natOfDigits (g.filter (fun c => c ≠ ',')), (PyFloat.finite.inj h).symm⟩

/-!
Lemmas about the decimal rendering used for re-normalization.
-/

theorem digitChar_isDigit {m : ℕ} (h : m < 10) : (Char.ofNat (48 + m)).isDigit = true := by
  interval_cases m <;> decide

theorem digVal_digitChar {m : ℕ} (h : m < 10) : digVal (Char.ofNat (48 + m)) = m := by
  interval_cases m <;> decide

theorem natDigitsAux_fuel : ∀ (n f1 f2 : ℕ), n < f1 → n < f2 →
    natDigitsAux f1 n = natDigitsAux f2 n := by
  intro n
  induction n using Nat.strong_induction_on with
  | _ n ih =>
    intro f1 f2 h1 h2
    cases f1 with
    | zero => omega
    | succ g1 =>
      cases f2 with
      | zero => omega
      | succ g2 =>
        rw [natDigitsAux, natDigitsAux]
        by_cases hn : n < 10
        · rw [if_pos hn, if_pos hn]
        · rw [if_neg hn, if_neg hn]
          have hd : n / 10 < n := Nat.div_lt_self (by omega) (by omega)
          rw [ih (n / 10) hd g1 g2 (by omega) (by omega)]

theorem natDigits_eq_ite (n : ℕ) :
    natDigits n = if n < 10 then [Char.ofNat (48 + n)]
      else natDigits (n / 10) ++ [Char.ofNat (48 + n % 10)] := by
  rw [natDigits, natDigitsAux]
  by_cases hn : n < 10
  · rw [if_pos hn, if_pos hn]
  · rw [if_neg hn, if_neg hn, natDigits,
      natDigitsAux_fuel (n / 10) n (n / 10 + 1)
        (Nat.div_lt_self (by omega) (by omega)) (by omega)]

theorem natDigits_ne_nil (n : ℕ) : natDigits n ≠ [] := by
  rw [natDigits_eq_ite]
  rcases Nat.lt_or_ge n 10 with h | h
  · rw [if_pos h]; simp
  · rw [if_neg (by omega)]; simp

theorem natDigits_all_digits : ∀ n : ℕ, ∀ c ∈ natDigits n, c.isDigit = true := by
  intro n
  induction n using Nat.strong_induction_on with
  | _ n ih =>
    rw [natDigits_eq_ite]
    rcases Nat.lt_or_ge n 10 with h | h
    · rw [if_pos h]
      intro c hc
      rcases List.mem_singleton.mp hc with rfl
      exact digitChar_isDigit h
    · rw [if_neg (by omega)]
      intro c hc
      rcases List.mem_append.mp hc with h1 | h2
      · exact ih (n / 10) (Nat.div_lt_self (by omega) (by omega)) c h1
      · rcases List.mem_singleton.mp h2 with rfl
        exact digitChar_isDigit (Nat.mod_lt _ (by omega))

theorem natOfDigits_append_one (a : Str) (c : Char) :
    natOfDigits (a ++ [c]) = 10 * natOfDigits a + digVal c := by
  unfold natOfDigits
  rw [List.foldl_append]
  rfl

theorem natOfDigits_natDigits : ∀ n : ℕ, natOfDigits (natDigits n) = n := by
  intro n
  induction n using Nat.strong_induction_on with
  | _ n ih =>
    rw [natDigits_eq_ite]
    rcases Nat.lt_or_ge n 10 with h | h
    · rw [if_pos h]
      simp [natOfDigits, digVal_digitChar h]
    · rw [if_neg (by omega), natOfDigits_append_one,
        ih (n / 10) (Nat.div_lt_self (by omega) (by omega)),
        digVal_digitChar (Nat.mod_lt _ (by omega))]
      omega

/-- Re-applying `clean_price` to the positional rendering of one of its own
finite outputs (below the scientific-notation threshold `1e16`) recovers the
value: the digit run before `.0` is extracted whole. -/
theorem cleanPrice_pyFloatStr {n : ℕ} (hlt : n < 10 ^ 16) :
    cleanPrice (pyFloatStr n) = PyFloat.finite ((n : ℚ)) := by
  have hdig := natDigits_all_digits n
  have hrun : ∀ c ∈ natDigits n, isRunChar c = true :=
    fun c hc => digit_isRunChar (hdig c hc)
  have hfr : firstRun (natDigits n ++ ['.', '0']) = some (natDigits n) := by
    rw [firstRun_append_run (natDigits_ne_nil n) hrun]
    rw [List.takeWhile_cons, if_neg (by decide), List.append_nil]
  rw [pyFloatStr, if_pos hlt, cleanPrice_of_run hfr]
  have hfe : (natDigits n).filter (fun c => c ≠ ',') = natDigits n :=
    List.filter_eq_self.mpr (fun c hc => decide_eq_true (digit_ne_comma (hdig c hc)))
  rw [hfe, pyFloat_digits (natDigits_ne_nil n) hdig, Option.getD_some,
    natOfDigits_natDigits]

unseal Rat.mul Rat.inv Rat.add Rat.sub

/-!
Claim C3: totality and specified values of the amount normalizer.
-/

/-- C3: `normalize_amount` (= `clean_price`) is total — every input string
yields a `PyFloat` value, and whenever the inner `float()` call fails the
`try/except` fallback returns `0` rather than raising — and
`normalize_amount("") = 0`, `normalize_amount("12,345") = 12345`,
`normalize_amount("(1,000)") = 1000`, and unparseable input such as
`"N/A"` yields `0`. -/
theorem c3_normalize_amount_total_and_values :
    (∀ s : Str, ∃ v : PyFloat, cleanPrice s = v) ∧
    (∀ s g : Str, firstRun s = some g →
      pyFloat (g.filter (fun c => c ≠ ',')) = none →
      cleanPrice s = PyFloat.finite 0) ∧
    (∀ s : Str, firstRun s = none →
      pyFloat (s.filter (fun c => c ≠ ',')) = none →
      cleanPrice s = PyFloat.finite 0) ∧
    cleanPrice "".data = PyFloat.finite 0 ∧
    cleanPrice "12,345".data = PyFloat.finite 12345 ∧
    cleanPrice "(1,000)".data = PyFloat.finite 1000 ∧
    cleanPrice "N/A".data = PyFloat.finite 0 := by
  refine ⟨fun s => ⟨cleanPrice s, rfl⟩, fun s g hfr hfail => ?_, fun s hfr hfail => ?_,
    by decide, by decide, by decide, by decide⟩
  · rw [cleanPrice_of_run hfr, hfail]
    rfl
  · rw [cleanPrice_of_noRun hfr, hfail]
    rfl

/-- C3 witness: the failure-fallback clause at the unparseable `"N/A"`. -/
theorem c3_witness : cleanPrice "N/A".data = PyFloat.finite 0 :=
  c3_normalize_amount_total_and_values.2.2.1 "N/A".data (by decide) (by decide)

/-!
Claim C4: sign behaviour of the amount normalizer.
-/

/-- C4 counterexample: the claim says a plain negative numeral like `"-123"`
parses to its negative value; in fact the capture group `([\d,]+)` of
`clean_price` starts at the first digit, so the minus sign is discarded and
`normalize_amount("-123") = 123`, not `-123`. -/
theorem c4_counterexample :
    cleanPrice "-123".data = PyFloat.finite 123 ∧
    ¬ cleanPrice "-123".data = PyFloat.finite (-123) := by
  exact ⟨by decide, by decide⟩

/-- C4 amended: `normalize_amount` never returns a negative *finite* value —
a negative numeral loses its sign because the digit-run extraction skips
the leading `-`, as `"-123" ↦ 123` shows.  The only negative outputs are
non-finite: a digit-free string such as `"-inf"` reaches `float()` intact
and yields negative infinity. -/
theorem c4_amended_no_negative_finite :
    (∀ (s : Str) (q : ℚ), cleanPrice s = PyFloat.finite q → 0 ≤ q) ∧
    cleanPrice "-123".data = PyFloat.finite 123 ∧
    cleanPrice "-inf".data = PyFloat.inf true := by
  refine ⟨fun s q h => ?_, by decide, by decide⟩
  obtain ⟨n, rfl⟩ := cleanPrice_finite_nat h
  exact_mod_cast Nat.zero_le n

/-- C4 witness: the no-negative-finite clause at the sign-stripped `"-123"`. -/
theorem c4_witness : (0 : ℚ) ≤ 123 :=
  c4_amended_no_negative_finite.1 "-123".data 123 (by decide)

/-!
Claim C10: silent truncation of fractional parts.
-/

theorem firstRun_append_skip : ∀ {pre : Str}, (∀ c ∈ pre, isRunChar c = false) →
    ∀ l : Str, firstRun (pre ++ l) = firstRun l := by
  intro pre
  induction pre with
  | nil => intro _ l; rfl
  | cons c p ih =>
    intro h l
    rw [List.cons_append, firstRun,
      if_neg (by simp [h c (List.mem_cons_self c p)])]
    exact ih (fun d hd => h d (List.mem_cons_of_mem c hd)) l

/-- C10: for every input string containing a decimal numeral — any prefix
free of digits and commas, then a nonempty digit run possibly holding
thousands separators, then a decimal point followed by anything —
`clean_price` keeps only the digits of that first digit/comma run and
discards everything from the decimal point on, yielding the whole number the
run's digits spell; in particular `normalize_amount("12.5") = 12 ≠ 25/2`,
`normalize_amount("1,234.5") = 1234` and `normalize_amount("a12.5") = 12`. -/
theorem c10_fraction_truncated :
    (∀ pre ip rest : Str, (∀ c ∈ pre, isRunChar c = false) →
      ip ≠ [] → (∀ c ∈ ip, isRunChar c = true) →
      ip.filter (fun c => c ≠ ',') ≠ [] →
      cleanPrice (pre ++ ip ++ '.' :: rest) =
        PyFloat.finite ((natOfDigits (ip.filter (fun c => c ≠ ',')) : ℚ))) ∧
    cleanPrice "12.5".data = PyFloat.finite 12 ∧
    ¬ cleanPrice "12.5".data = PyFloat.finite (25 / 2) ∧
    cleanPrice "1,234.5".data = PyFloat.finite 1234 ∧
    cleanPrice "a12.5".data = PyFloat.finite 12 := by
  refine ⟨fun pre ip rest hpre h1 h2 h3 => ?_, by decide, by decide, by decide,
    by decide⟩
  have hfr : firstRun (pre ++ (ip ++ '.' :: rest)) = some ip := by
    rw [firstRun_append_skip hpre, firstRun_append_run h1 h2,
      List.takeWhile_cons, if_neg (by decide), List.append_nil]
  rw [List.append_assoc, cleanPrice_of_run hfr,
    pyFloat_digits h3 (filter_comma_digits h2), Option.getD_some]

/-- C10 witness: the general clause at the embedded, separator-bearing
numeral `"a1,234.5"`. -/
theorem c10_witness :
    cleanPrice ("a".data ++ "1,234".data ++ '.' :: "5x".data) =
      PyFloat.finite ((natOfDigits ("1,234".data.filter (fun c => c ≠ ',')) : ℚ)) :=
  c10_fraction_truncated.1 "a".data "1,234".data "5x".data
    (by decide) (by decide) (by decide) (by decide)

/-!
Claim C6: idempotence of the amount normalizer.
-/

/-- C6 counterexample: re-normalizing is *not* a no-op for every value.
`clean_price("10000000000000000")` is `1e16`, but `str(1e16)` is the
scientific rendering `"1e+16"`, whose first digit run is just `"1"`, so
re-applying `clean_price` collapses the value to `1`. -/
theorem c6_counterexample :
    cleanPrice "10000000000000000".data = PyFloat.finite 10000000000000000 ∧
    pyFloatStr (10 ^ 16) = "1e+16".data ∧
    cleanPrice (pyFloatStr (10 ^ 16)) = PyFloat.finite 1 ∧
    ¬ PyFloat.finite (1 : ℚ) = PyFloat.finite 10000000000000000 := by
  exact ⟨by decide, by decide, by decide, by decide⟩

/-- C6 amended: re-normalizing a normalized amount is a no-op for finite
values below `1e16`, where `str(x)` renders positionally as digits followed
by `.0` and the digit run extracted from that rendering recovers the value
exactly; from `1e16` on, `str` switches to scientific notation and
re-normalization collapses the value (e.g. `1e16 ↦ 1`). -/
theorem c6_amended_idempotent_below_sci :
    (∀ (s : Str) (n : ℕ), cleanPrice s = PyFloat.finite ((n : ℚ)) → n < 10 ^ 16 →
      cleanPrice (pyFloatStr n) = cleanPrice s) ∧
    cleanPrice (pyFloatStr (10 ^ 16)) = PyFloat.finite 1 := by
  refine ⟨fun s n h hlt => ?_, by decide⟩
  rw [cleanPrice_pyFloatStr hlt, h]

/-- C6 witness: re-normalizing the normalized value of `"12,345"`. -/
theorem c6_witness :
    cleanPrice (pyFloatStr 12345) = cleanPrice "12,345".data :=
  c6_amended_idempotent_below_sci.1 "12,345".data 12345 (by decide) (by decide)

/-!
Claim C5: the prefix key extractor.
-/

theorem matchNonParen_eq_takeWhile :
    ∀ l : Str, matchNonParen l = l.takeWhile (fun c => c ≠ '(')
  | [] => rfl
  | c :: l => by
    rw [ matchNonParen, List.takeWhile_cons]
    by_cases hc : c = '('
    · rw [if_pos hc, if_neg]
      simp [hc]
    · rw [if_neg hc, if_pos (by simp [hc]), matchNonParen_eq_takeWhile l]

/-- C5 counterexample: the claim says `prefix_key` returns `"other"` when the
extracted pre-parenthesis text trims to the empty string, but on
`"  (x)"` the blank-input guard does not fire (the whole string is not
blank), the match succeeds on the two spaces, and `extract_prefix` returns
the empty string — not the sentinel `"기타"`. -/
theorem c5_counterexample :
    extractPrefix "  (x)".data = [] ∧ ¬ extractPrefix "  (x)".data = "기타".data := by
  exact ⟨by decide, by decide⟩

/-- C5 amended: `prefix_key` returns the sentinel `"기타"` ("other") exactly
when the input is blank (trims to empty) or starts with `(`; otherwise it
returns the text preceding the first `(` trimmed — which is the empty
string, not the sentinel, when that text is whitespace-only.  Concretely:
`"Snacks (Imported)" ↦ "Snacks"`, `"" ↦ "기타"`, `"   " ↦ "기타"`,
`"(Imported)" ↦ "기타"`, and `"  (x)" ↦ ""`. -/
theorem c5_amended_prefix_key :
    extractPrefix "Snacks (Imported)".data = "Snacks".data ∧
    extractPrefix "".data = "기타".data ∧
    extractPrefix "   ".data = "기타".data ∧
    extractPrefix "(Imported)".data = "기타".data ∧
    extractPrefix "  (x)".data = [] ∧
    (∀ l : Str, pyStrip l = [] → extractPrefix l = "기타".data) ∧
    (∀ l : Str, pyStrip l ≠ [] → matchNonParen l ≠ [] →
      extractPrefix l = pyStrip (l.takeWhile (fun c => c ≠ '('))) := by
  refine ⟨by decide, by decide, by decide, by decide, by decide,
    fun l h => ?_, fun l h1 h2 => ?_⟩
  · rw [ extractPrefix, if_pos h]
  · rw [ extractPrefix, if_neg h1, ← matchNonParen_eq_takeWhile]
    simp only [if_neg h2]

/-- C5 witness: the general pre-parenthesis clause at `"Snacks (Imported)"`
and the blank clause at `"   "`. -/
theorem c5_witness :
    extractPrefix "   ".data = "기타".data ∧
    extractPrefix "Snacks (Imported)".data =
      pyStrip ("Snacks (Imported)".data.takeWhile (fun c => c ≠ '(')) :=
  ⟨(c5_amended_prefix_key.2.2.2.2.2.1) "   ".data (by decide),
   (c5_amended_prefix_key.2.2.2.2.2.2) "Snacks (Imported)".data (by decide) (by decide)⟩

/-!
Claim C2: delta and delta-rate of every comparison row, and the §8 scenario.
-/

/-- C2: every comparison row satisfies `delta = current - previous` and
`delta_rate = delta / previous * 100` with a previous value of `0` replaced
by `1` (`.replace(0, 1)`), and the comparator on the scenario
prev = `[A:100, B:50]`, curr = `[A:150, C:20]` yields exactly
A: prev 100, curr 150, delta 50, rate 50; B: prev 50, curr 0, delta -50,
rate -100; C: prev 0, curr 20, delta 20, rate 2000. -/
theorem c2_delta_rate_and_scenario :
    (∀ p c : List (Str × ℚ), ∀ row ∈ compareRows p c,
      row.delta = row.curr - row.prev ∧
      row.rate = row.delta / (if row.prev = 0 then 1 else row.prev) * 100) ∧
    compareRows scenPrev scenCurr =
      [⟨"A".data, 150, 100, 50, 50⟩,
       ⟨"B".data, 0, 50, -50, -100⟩,
       ⟨"C".data, 20, 0, 20, 2000⟩] := by
  constructor
  · intro p c row hrow
    simp only [compareRows, List.mem_map] at hrow
    obtain ⟨k, _, rfl⟩ := hrow
    exact ⟨rfl, rfl⟩
  · decide

/-- C2 witness: the delta/rate relation instantiated at the scenario's
row for key A. -/
theorem c2_witness :
    (⟨"A".data, 150, 100, 50, 50⟩ : ComparisonRow).delta =
      (⟨"A".data, 150, 100, 50, 50⟩ : ComparisonRow).curr -
        (⟨"A".data, 150, 100, 50, 50⟩ : ComparisonRow).prev ∧
    (⟨"A".data, 150, 100, 50, 50⟩ : ComparisonRow).rate =
      (⟨"A".data, 150, 100, 50, 50⟩ : ComparisonRow).delta /
        (if (⟨"A".data, 150, 100, 50, 50⟩ : ComparisonRow).prev = 0 then 1
         else (⟨"A".data, 150, 100, 50, 50⟩ : ComparisonRow).prev) * 100 :=
  c2_delta_rate_and_scenario.1 scenPrev scenCurr _ (by decide)

/-!
Claim C7: report metrics on an empty current period.
-/

/-- C7 counterexample: on an empty current period the average order value is
indeed guarded to `0`, but the top-5 concentration ratio is *not* "defined
as 0": `sales_ratio = (total_top5_sales / total_sales) * 100` carries no
zero guard, so with `total_sales = 0` the division by zero is performed and
yields no real number (numpy NaN, modelled `none`) instead of `0`. -/
theorem c7_counterexample :
    avgOrderValue [] = 0 ∧ salesRatio [] = none ∧ ¬ salesRatio [] = some 0 := by
  exact ⟨by decide, by decide, by decide⟩

/-- C7 amended: when the total order count is zero the average order value is
`0` (the code guards this division), and when the total sale amount is zero
the concentration-ratio division by zero is actually performed, producing an
undefined (NaN) value rather than `0`. -/
theorem c7_amended_empty_period_metrics :
    (∀ recs : List SalesRecord, totalOrders recs = 0 → avgOrderValue recs = 0) ∧
    (∀ recs : List SalesRecord, totalSales recs = 0 → salesRatio recs = none) := by
  constructor
  · intro recs h
    have hno : ¬ 0 < totalOrders recs := by rw [h]; exact lt_irrefl 0
    rw [avgOrderValue, if_neg hno]
  · intro recs h
    rw [ salesRatio, fdiv, if_pos h]
    rfl

/-- C7 witness: both guards instantiated at the empty record set. -/
theorem c7_witness : avgOrderValue [] = 0 ∧ salesRatio [] = none :=
  ⟨c7_amended_empty_period_metrics.1 [] (by decide),
   c7_amended_empty_period_metrics.2 [] (by decide)⟩

/-!
Claim C8: the loader's required-column completion.
-/

theorem lookupCol_append_of_none {n : String} {l1 : List (String × List Str)}
    (h : lookupCol n l1 = none) (l2 : List (String × List Str)) :
    lookupCol n (l1 ++ l2) = lookupCol n l2 := by
  induction l1 with
  | nil => rfl
  | cons e l ih =>
    rw [lookupCol] at h
    rcases e with ⟨m, v⟩
    by_cases hm : m = n
    · rw [if_pos hm] at h; cases h
    · rw [if_neg hm] at h
      rw [List.cons_append, lookupCol, if_neg hm]
      exact ih h

theorem lookupCol_append_of_some {n : String} {l1 : List (String × List Str)}
    {v : List Str} (h : lookupCol n l1 = some v) (l2 : List (String × List Str)) :
    lookupCol n (l1 ++ l2) = some v := by
  induction l1 with
  | nil => cases h
  | cons e l ih =>
    rcases e with ⟨m, w⟩
    rw [lookupCol] at h
    by_cases hm : m = n
    · rw [if_pos hm] at h
      rw [List.cons_append, lookupCol, if_pos hm]
      exact h
    · rw [if_neg hm] at h
      rw [List.cons_append, lookupCol, if_neg hm]
      exact ih h

theorem fillCols_lookup_mono :
    ∀ {cs : List String} {label : Str} {t t2 : Table},
      fillCols label cs t = some t2 →
      ∀ {n : String} {v : List Str}, lookupCol n t.cols = some v →
        lookupCol n t2.cols = some v := by
  intro cs
  induction cs with
  | nil =>
    intro label t t2 hf n v h
    cases Option.some.inj hf
    exact h
  | cons c cs ih =>
    intro label t t2 hf n v h
    rw [fillCols] at hf
    by_cases h1 : (lookupCol c t.cols).isSome
    · rw [if_pos h1] at hf
      exact ih hf h
    · rw [if_neg h1] at hf
      by_cases h2 : c = "지점명"
      · rw [if_pos h2] at hf
        exact ih hf (lookupCol_append_of_some h _)
      · rw [if_neg h2] at hf
        by_cases h3 : c = "월"
        · rw [if_pos h3] at hf
          exact ih hf (lookupCol_append_of_some h _)
        · rw [if_neg h3] at hf
          cases hf

theorem fillCols_wol_ne_none (label : Str) (t : Table) :
    fillCols label ["월"] t ≠ none := by
  rw [fillCols]
  by_cases h : (lookupCol "월" t.cols).isSome
  · rw [if_pos h]
    rw [fillCols]
    exact Option.some_ne_none t
  · rw [if_neg h, if_neg (by decide), if_pos rfl]
    rw [fillCols]
    exact Option.some_ne_none _

theorem fillCols_branch_ne_none (label : Str) (t : Table) :
    fillCols label ["지점명", "월"] t ≠ none := by
  rw [fillCols]
  by_cases h : (lookupCol "지점명" t.cols).isSome
  · rw [if_pos h]
    exact fillCols_wol_ne_none label t
  · rw [if_neg h, if_pos rfl]
    exact fillCols_wol_ne_none label _

theorem fillCols_req_tail {label : Str} {t t2 : Table}
    (hf : fillCols label requiredCols t = some t2) :
    fillCols label ["지점명", "월"] t = some t2 := by
  rw [requiredCols, fillCols] at hf
  by_cases h1 : (lookupCol "분류명" t.cols).isSome
  · rw [if_pos h1, fillCols] at hf
    by_cases h2 : (lookupCol "상품명" t.cols).isSome
    · rw [if_pos h2, fillCols] at hf
      by_cases h3 : (lookupCol "주문수" t.cols).isSome
      · rw [if_pos h3, fillCols] at hf
        by_cases h4 : (lookupCol "실판매금액" t.cols).isSome
        · rw [if_pos h4] at hf
          exact hf
        · rw [if_neg h4, if_neg (by decide), if_neg (by decide)] at hf
          cases hf
      · rw [if_neg h3, if_neg (by decide), if_neg (by decide)] at hf
        cases hf
    · rw [if_neg h2, if_neg (by decide), if_neg (by decide)] at hf
      cases hf
  · rw [if_neg h1, if_neg (by decide), if_neg (by decide)] at hf
    cases hf

/-- C8: given a decoded table, the load aborts with no result exactly when one
of the four non-defaultable columns `분류명` (category), `상품명` (product
name), `주문수` (order count), `실판매금액` (sale amount) is absent; when
`지점명` (branch) or `월` (period label) is absent the load still succeeds
and fills the column with the sentinel `미지정지점` resp. the supplied
period label, in every row. -/
theorem c8_load_missing_columns (t : Table) (label : Str) :
    (load t label = none ↔
      (lookupCol "분류명" t.cols = none ∨ lookupCol "상품명" t.cols = none ∨
       lookupCol "주문수" t.cols = none ∨ lookupCol "실판매금액" t.cols = none)) ∧
    (∀ res : Loaded, load t label = some res → lookupCol "지점명" t.cols = none →
      lookupCol "지점명" res.table.cols =
        some (List.replicate t.nrows "미지정지점".data)) ∧
    (∀ res : Loaded, load t label = some res → lookupCol "월" t.cols = none →
      lookupCol "월" res.table.cols = some (List.replicate t.nrows label)) := by
  refine ⟨?_, ?_, ?_⟩
  · rw [load, Option.map_eq_none']
    rw [requiredCols, fillCols]
    by_cases h1 : (lookupCol "분류명" t.cols).isSome
    · rw [if_pos h1, fillCols]
      by_cases h2 : (lookupCol "상품명" t.cols).isSome
      · rw [if_pos h2, fillCols]
        by_cases h3 : (lookupCol "주문수" t.cols).isSome
        · rw [if_pos h3, fillCols]
          by_cases h4 : (lookupCol "실판매금액" t.cols).isSome
          · rw [if_pos h4]
            constructor
            · intro hno
              exact absurd hno (fillCols_branch_ne_none label t)
            · rintro (h | h | h | h)
              · rw [h] at h1; simp at h1
              · rw [h] at h2; simp at h2
              · rw [h] at h3; simp at h3
              · rw [h] at h4; simp at h4
          · rw [if_neg h4, if_neg (by decide), if_neg (by decide)]
            simp [Option.not_isSome_iff_eq_none.mp h4]
        · rw [if_neg h3, if_neg (by decide), if_neg (by decide)]
          simp [Option.not_isSome_iff_eq_none.mp h3]
      · rw [if_neg h2, if_neg (by decide), if_neg (by decide)]
        simp [Option.not_isSome_iff_eq_none.mp h2]
    · rw [if_neg h1, if_neg (by decide), if_neg (by decide)]
      simp [Option.not_isSome_iff_eq_none.mp h1]
  · intro res hl hb
    rw [load] at hl
    obtain ⟨t2, hf, hres⟩ := Option.map_eq_some'.mp hl
    have htab : res.table = t2 := by rw [← hres]
    rw [htab]
    have htail := fillCols_req_tail hf
    rw [fillCols, if_neg (by simp [hb]), if_pos rfl] at htail
    refine fillCols_lookup_mono htail ?_
    show lookupCol "지점명"
        (t.cols ++ [("지점명", List.replicate t.nrows "미지정지점".data)]) = _
    rw [lookupCol_append_of_none hb, lookupCol, if_pos rfl]
  · intro res hl hw
    rw [load] at hl
    obtain ⟨t2, hf, hres⟩ := Option.map_eq_some'.mp hl
    have htab : res.table = t2 := by rw [← hres]
    rw [htab]
    have htail := fillCols_req_tail hf
    by_cases hb2 : (lookupCol "지점명" t.cols).isSome
    · rw [fillCols, if_pos hb2] at htail
      rw [fillCols, if_neg (by simp [hw]), if_neg (by decide), if_pos rfl] at htail
      rw [fillCols] at htail
      cases Option.some.inj htail
      show lookupCol "월" (t.cols ++ [("월", List.replicate t.nrows label)]) = _
      rw [lookupCol_append_of_none hw, lookupCol, if_pos rfl]
    · rw [fillCols, if_neg hb2, if_pos rfl] at htail
      have hw2 : lookupCol "월"
          (t.cols ++ [("지점명", List.replicate t.nrows "미지정지점".data)]) = none := by
        rw [lookupCol_append_of_none hw, lookupCol, if_neg (by decide)]
        rfl
      rw [fillCols, if_neg (by simp [addCol, hw2]), if_neg (by decide), if_pos rfl]
        at htail
      rw [fillCols] at htail
      cases Option.some.inj htail
      show lookupCol "월"
          ((t.cols ++ [("지점명", List.replicate t.nrows "미지정지점".data)]) ++
            [("월", List.replicate t.nrows label)]) = _
      rw [lookupCol_append_of_none hw2, lookupCol, if_pos rfl]

/-- C8 witness: a table missing `상품명` aborts; a table missing `지점명` and
`월` loads with both columns filled in every row. -/
theorem c8_witness :
    load tableNoProduct "5월".data = none ∧
    lookupCol "지점명"
        (((load tableNoBranch "5월".data).getD emptyLoaded).table.cols) =
      some (List.replicate tableNoBranch.nrows "미지정지점".data) ∧
    lookupCol "월"
        (((load tableNoBranch "5월".data).getD emptyLoaded).table.cols) =
      some (List.replicate tableNoBranch.nrows "5월".data) :=
  ⟨(c8_load_missing_columns tableNoProduct "5월".data).1.mpr
      (Or.inr (Or.inl (by decide))),
   (c8_load_missing_columns tableNoBranch "5월".data).2.1 _ (by decide) (by decide),
   (c8_load_missing_columns tableNoBranch "5월".data).2.2 _ (by decide) (by decide)⟩

/-!
Claim C9: grouping preserves the total of the summed measure.
-/

theorem sumAmt_nil (k : Str) : sumAmt k [] = 0 := rfl

theorem sumAmt_cons (k : Str) (r : Str × ℚ) (rows : List (Str × ℚ)) :
    sumAmt k (r :: rows) =
      if r.1 = k then r.2 + sumAmt k rows else sumAmt k rows := by
  rw [sumAmt, List.filter_cons]
  by_cases h : r.1 = k
  · rw [if_pos (decide_eq_true h), if_pos h, List.map_cons, List.sum_cons]
    rfl
  · rw [if_neg (by simp [h]), if_neg h]
    rfl

theorem sum_map_ite (a : Str) (v : ℚ) (f : Str → ℚ) :
    ∀ ks : List Str, ks.Nodup → a ∈ ks →
      (ks.map (fun k => if a = k then v + f k else f k)).sum = v + (ks.map f).sum := by
  intro ks
  induction ks with
  | nil => intro _ h; cases h
  | cons b ks ih =>
    intro hnd hmem
    obtain ⟨hbnot, hndt⟩ := List.nodup_cons.mp hnd
    rcases List.mem_cons.mp hmem with rfl | hmem2
    · rw [List.map_cons, List.sum_cons, if_pos rfl]
      have hmc : ks.map (fun k => if a = k then v + f k else f k) = ks.map f :=
        List.map_congr_left (fun k hk => by
          rw [if_neg (by rintro rfl; exact hbnot hk)])
      rw [hmc, List.map_cons, List.sum_cons]
      ring
    · have hab : ¬ a = b := fun he => hbnot (by rwa [he] at hmem2)
      rw [List.map_cons, List.sum_cons, if_neg hab, List.map_cons, List.sum_cons,
        ih hndt hmem2]
      ring

theorem groupSum_sum_aux :
    ∀ (rows : List (Str × ℚ)) (ks : List Str), ks.Nodup →
      (∀ r ∈ rows, r.1 ∈ ks) →
      (ks.map (fun k => sumAmt k rows)).sum = (rows.map (fun r => r.2)).sum := by
  intro rows
  induction rows with
  | nil =>
    intro ks _ _
    simp [sumAmt_nil]
  | cons r rows ih =>
    intro ks hnd hmem
    have hrw : ks.map (fun k => sumAmt k (r :: rows)) =
        ks.map (fun k => if r.1 = k then r.2 + sumAmt k rows else sumAmt k rows) :=
      List.map_congr_left (fun k _ => sumAmt_cons k r rows)
    rw [List.map_cons, List.sum_cons, hrw,
      sum_map_ite r.1 r.2 _ ks hnd (hmem r (List.mem_cons_self r rows)),
      ih ks hnd (fun s hs => hmem s (List.mem_cons_of_mem r hs))]

theorem sortKeys_dedup_nodup (l : List Str) : (sortKeys l.dedup).Nodup :=
  ((sortBy_perm strLtB l.dedup).nodup_iff).mpr (List.nodup_dedup l)

theorem mem_sortKeys_dedup {l : List Str} {k : Str} :
    k ∈ sortKeys l.dedup ↔ k ∈ l := by
  rw [sortKeys, mem_sortBy, List.mem_dedup]

/-- C9: summing `sum_amount` over all buckets of a groupby aggregation equals
the sum of the input records' amounts — grouping neither drops nor
double-counts any record. -/
theorem c9_aggregate_sum_preserved (rows : List (Str × ℚ)) :
    ((groupSum rows).map (fun b => b.2)).sum = (rows.map (fun r => r.2)).sum := by
  rw [groupSum, List.map_map]
  have hks := sortKeys_dedup_nodup (rows.map (fun r => r.1))
  have hmem : ∀ r ∈ rows, r.1 ∈ sortKeys (rows.map (fun r => r.1)).dedup := by
    intro r hr
    rw [mem_sortKeys_dedup]
    exact List.mem_map_of_mem _ hr
  exact groupSum_sum_aux rows _ hks hmem

/-!
Claim C1: key selection of the period comparator.
-/

theorem groupSum_keys (rows : List (Str × ℚ)) :
    (groupSum rows).map (fun b => b.1) = sortKeys (rows.map (fun r => r.1)).dedup := by
  rw [groupSum, List.map_map]
  show (sortKeys (rows.map (fun r => r.1)).dedup).map (fun k => k) = _
  exact List.map_id _

theorem mem_groupSum_keys {rows : List (Str × ℚ)} {k : Str} :
    k ∈ (groupSum rows).map (fun b => b.1) ↔ k ∈ rows.map (fun r => r.1) := by
  rw [groupSum_keys, mem_sortKeys_dedup]

theorem seriesAdd_keys (a b : List (Str × ℚ)) :
    (seriesAdd a b).map (fun e => e.1) =
      sortKeys ((a.map (fun r => r.1)) ++ (b.map (fun r => r.1))).dedup := by
  rw [seriesAdd, List.map_map]
  show (sortKeys _).map (fun k => k) = _
  exact List.map_id _

theorem lookupQ_eq_none {k : Str} : ∀ {l : List (Str × ℚ)},
    k ∉ l.map (fun r => r.1) → lookupQ k l = none := by
  intro l
  induction l with
  | nil => intro _; rfl
  | cons e r ih =>
    rcases e with ⟨k2, v⟩
    intro h
    simp only [List.map_cons, List.mem_cons] at h
    push_neg at h
    rw [lookupQ, if_neg (fun he => h.1 he.symm)]
    exact ih (fun hm => h.2 hm)

theorem lookupQ_isSome_of_mem {k : Str} : ∀ {l : List (Str × ℚ)},
    k ∈ l.map (fun r => r.1) → (lookupQ k l).isSome = true := by
  intro l
  induction l with
  | nil => intro h; cases h
  | cons e r ih =>
    rcases e with ⟨k2, v⟩
    intro h
    rw [lookupQ]
    by_cases he : k2 = k
    · rw [if_pos he]; rfl
    · rw [if_neg he]
      simp only [List.map_cons, List.mem_cons] at h
      rcases h with h | h
      · exact absurd h.symm he
      · exact ih h

theorem mem_of_lookupQ_isSome {k : Str} : ∀ {l : List (Str × ℚ)},
    (lookupQ k l).isSome = true → k ∈ l.map (fun r => r.1) := by
  intro l
  induction l with
  | nil => intro h; cases h
  | cons e r ih =>
    rcases e with ⟨k2, v⟩
    intro h
    rw [lookupQ] at h
    simp only [List.map_cons, List.mem_cons]
    by_cases he : k2 = k
    · exact Or.inl he.symm
    · rw [if_neg he] at h
      exact Or.inr (ih h)

theorem lookupQ_isSome_groupSum (rows : List (Str × ℚ)) (k : Str) :
    (lookupQ k (groupSum rows)).isSome =
      decide (k ∈ rows.map (fun r => r.1)) := by
  by_cases h : k ∈ rows.map (fun r => r.1)
  · rw [decide_eq_true h]
    exact lookupQ_isSome_of_mem (mem_groupSum_keys.mpr h)
  · rw [decide_eq_false h, lookupQ_eq_none (fun hm => h (mem_groupSum_keys.mp hm))]
    rfl

theorem filter_map_comm (f : α → β) (p : β → Bool) :
    ∀ l : List α, (l.map f).filter p = (l.filter (fun a => p (f a))).map f := by
  intro l
  induction l with
  | nil => rfl
  | cons a l ih =>
    rw [List.map_cons, List.filter_cons, List.filter_cons]
    by_cases h : p (f a)
    · rw [if_pos h, if_pos h, List.map_cons, ih]
    · rw [if_neg h, if_neg h, ih]

theorem seriesAdd_entry_isSome (a b : List (Str × ℚ)) (k : Str) :
    (match lookupQ k a, lookupQ k b with
      | some x, some y => some (x + y)
      | _, _ => (none : Option ℚ)).isSome =
      ((lookupQ k a).isSome && (lookupQ k b).isSome) := by
  cases lookupQ k a <;> cases lookupQ k b <;> rfl

theorem seriesAdd_isSome_mem {a b : List (Str × ℚ)} {e : Str × Option ℚ}
    (he : e ∈ seriesAdd a b) (hs : e.2.isSome = true) :
    e.1 ∈ a.map (fun r => r.1) ∧ e.1 ∈ b.map (fun r => r.1) := by
  rw [seriesAdd] at he
  obtain ⟨k, _, rfl⟩ := List.mem_map.mp he
  have hs2 : ((lookupQ k a).isSome && (lookupQ k b).isSome) = true := by
    rw [← seriesAdd_entry_isSome a b k]
    exact hs
  obtain ⟨h1, h2⟩ := Bool.and_eq_true_iff.mp hs2
  exact ⟨mem_of_lookupQ_isSome h1, mem_of_lookupQ_isSome h2⟩

theorem length_filter_nodup_eq {l1 l2 : List Str} {p q : Str → Bool}
    (h1 : l1.Nodup) (h2 : l2.Nodup)
    (hiff : ∀ k, (k ∈ l1 ∧ p k = true) ↔ (k ∈ l2 ∧ q k = true)) :
    (l1.filter p).length = (l2.filter q).length := by
  have hmem : ∀ k, k ∈ l1.filter p ↔ k ∈ l2.filter q := by
    intro k
    rw [List.mem_filter, List.mem_filter]
    exact hiff k
  exact ((List.perm_ext_iff_of_nodup (h1.filter p) (h2.filter q)).mpr hmem).length_eq

theorem shared_count_eq (p c : List (Str × ℚ)) :
    ((seriesAdd (groupSum p) (groupSum c)).filter (fun e => e.2.isSome)).length =
      sharedKeyCount p c := by
  rw [seriesAdd, filter_map_comm, List.length_map, sharedKeyCount]
  refine length_filter_nodup_eq (sortKeys_dedup_nodup _) (List.nodup_dedup _) ?_
  intro k
  constructor
  · rintro ⟨_, hpk⟩
    have hand : ((lookupQ k (groupSum p)).isSome &&
        (lookupQ k (groupSum c)).isSome) = true := by
      rw [← seriesAdd_entry_isSome (groupSum p) (groupSum c) k]
      exact hpk
    obtain ⟨ha, hb⟩ := Bool.and_eq_true_iff.mp hand
    rw [lookupQ_isSome_groupSum] at ha hb
    exact ⟨List.mem_dedup.mpr (of_decide_eq_true ha), hb⟩
  · rintro ⟨hkd, hkc⟩
    have hkp : k ∈ p.map (fun r => r.1) := List.mem_dedup.mp hkd
    have hkU : k ∈ sortKeys (((groupSum p).map (fun r => r.1)) ++
        ((groupSum c).map (fun r => r.1))).dedup := by
      rw [mem_sortKeys_dedup, List.mem_append]
      exact Or.inl (mem_groupSum_keys.mpr hkp)
    refine ⟨hkU, ?_⟩
    show ((k, match lookupQ k (groupSum p), lookupQ k (groupSum c) with
      | some x, some y => some (x + y)
      | _, _ => (none : Option ℚ)) : Str × Option ℚ).2.isSome = true
    rw [seriesAdd_entry_isSome (groupSum p) (groupSum c) k]
    rw [lookupQ_isSome_groupSum, lookupQ_isSome_groupSum,
      decide_eq_true hkp, hkc]
    rfl

theorem sortValuesDesc_mem {s : List (Str × Option ℚ)} {e : Str × Option ℚ}
    (h : e ∈ sortValuesDesc s) : e ∈ s := by
  rw [sortValuesDesc] at h
  rcases List.mem_append.mp h with h1 | h2
  · exact (List.mem_filter.mp (mem_sortBy.mp h1)).1
  · exact (List.mem_filter.mp h2).1

theorem top10_mem_union {prev curr : List (Str × ℚ)} {k : Str}
    (h : k ∈ top10 prev curr) :
    k ∈ prev.map (fun r => r.1) ∨ k ∈ curr.map (fun r => r.1) := by
  rw [top10] at h
  have h2 := List.take_subset _ _ h
  obtain ⟨e, he, rfl⟩ := List.mem_map.mp h2
  have hk : e.1 ∈ (seriesAdd (groupSum prev) (groupSum curr)).map (fun x => x.1) :=
    List.mem_map_of_mem _ (sortValuesDesc_mem he)
  rw [seriesAdd_keys, mem_sortKeys_dedup, List.mem_append] at hk
  rcases hk with hp | hc
  · exact Or.inl (mem_groupSum_keys.mp hp)
  · exact Or.inr (mem_groupSum_keys.mp hc)

theorem top10_shared_of_ge {prev curr : List (Str × ℚ)}
    (h : 10 ≤ sharedKeyCount prev curr) :
    ∀ k ∈ top10 prev curr,
      k ∈ prev.map (fun r => r.1) ∧ k ∈ curr.map (fun r => r.1) := by
  intro k hk
  rw [top10, sortValuesDesc, List.map_append] at hk
  have hlen : 10 ≤ ((sortBy (fun x y => decide ((y.2.getD 0) < (x.2.getD 0)))
      ((seriesAdd (groupSum prev) (groupSum curr)).filter
        (fun e => e.2.isSome))).map (fun e => e.1)).length := by
    rw [List.length_map, length_sortBy, shared_count_eq]
    exact h
  rw [List.take_append_of_le_length hlen] at hk
  obtain ⟨e, he, rfl⟩ := List.mem_map.mp (List.take_subset _ _ hk)
  obtain ⟨he3, hs⟩ := List.mem_filter.mp (mem_sortBy.mp he)
  have hb := @seriesAdd_isSome_mem (groupSum prev) (groupSum curr) _ he3 hs
  exact ⟨mem_groupSum_keys.mp hb.1, mem_groupSum_keys.mp hb.2⟩

theorem compareRows_keys (prev curr : List (Str × ℚ)) :
    (compareRows prev curr).map (fun r => r.key) =
      sortKeys (((groupSum (curr.filter
          (fun r => decide (r.1 ∈ top10 prev curr)))).map (fun b => b.1)) ++
        ((groupSum (prev.filter
          (fun r => decide (r.1 ∈ top10 prev curr)))).map (fun b => b.1))).dedup := by
  simp only [compareRows]
  rw [List.map_map]
  show (sortKeys _).map (fun k => k) = _
  exact List.map_id _

theorem mem_map_fst_filter_mem {rows : List (Str × ℚ)} {tops : List Str} {k : Str} :
    k ∈ (rows.filter (fun r => decide (r.1 ∈ tops))).map (fun r => r.1) ↔
      k ∈ rows.map (fun r => r.1) ∧ k ∈ tops := by
  constructor
  · intro h
    obtain ⟨r, hr, rfl⟩ := List.mem_map.mp h
    obtain ⟨hrr, hp⟩ := List.mem_filter.mp hr
    exact ⟨List.mem_map_of_mem _ hrr, of_decide_eq_true hp⟩
  · rintro ⟨h1, h2⟩
    obtain ⟨r, hr, rfl⟩ := List.mem_map.mp h1
    exact List.mem_map_of_mem _ (List.mem_filter.mpr ⟨hr, decide_eq_true h2⟩)

theorem mem_compareRows_keys {prev curr : List (Str × ℚ)} {k : Str} :
    k ∈ (compareRows prev curr).map (fun r => r.key) ↔ k ∈ top10 prev curr := by
  rw [compareRows_keys, mem_sortKeys_dedup, List.mem_append]
  constructor
  · rintro (h | h)
    · exact (mem_map_fst_filter_mem.mp (mem_groupSum_keys.mp h)).2
    · exact (mem_map_fst_filter_mem.mp (mem_groupSum_keys.mp h)).2
  · intro h
    rcases top10_mem_union h with hp | hc
    · exact Or.inr (mem_groupSum_keys.mpr (mem_map_fst_filter_mem.mpr ⟨hp, h⟩))
    · exact Or.inl (mem_groupSum_keys.mpr (mem_map_fst_filter_mem.mpr ⟨hc, h⟩))

theorem compareRows_row_form {prev curr : List (Str × ℚ)} {k : Str}
    (hk : k ∈ top10 prev curr) :
    ∃ row ∈ compareRows prev curr, row.key = k ∧
      row.prev = (lookupQ k (groupSum (prev.filter
        (fun r => decide (r.1 ∈ top10 prev curr))))).getD 0 ∧
      row.curr = (lookupQ k (groupSum (curr.filter
        (fun r => decide (r.1 ∈ top10 prev curr))))).getD 0 := by
  have hkK := mem_compareRows_keys.mpr hk
  rw [compareRows_keys] at hkK
  simp only [compareRows]
  exact ⟨_, List.mem_map_of_mem _ hkK, rfl, rfl, rfl⟩

/-- C1 counterexample: with ten keys S0..S9 of amount 1 present in both
periods and a key Z of amount 100 present only in the current period, the
combined magnitude of Z (100) exceeds that of every shared key (2), yet Z is
not selected: pandas series addition aligns on the index and gives Z the sum
`1 + NaN = NaN`, which sorts after every numeric sum, so `head(10)` returns
exactly the ten shared keys and the comparison rows carry S0..S9 but drop Z
entirely — contradicting both the "top-10 by combined magnitude" ranking and
the "never dropped" part of the claim. -/
theorem c1_counterexample :
    "Z".data ∉ (compareRows tenShared currWithZ).map (fun r => r.key) ∧
    "S0".data ∈ (compareRows tenShared currWithZ).map (fun r => r.key) ∧
    sumAmt "S0".data tenShared + sumAmt "S0".data currWithZ = 2 ∧
    sumAmt "Z".data tenShared + sumAmt "Z".data currWithZ = 100 ∧
    (2 : ℚ) < 100 := by
  exact ⟨by decide, by decide, by decide, by decide, by norm_num⟩

/-- C1 amended: the comparison-row key set equals the code's `top10` list,
which ranks only the keys present in *both* periods by combined sum — a key
present in one period only has an undefined (NaN) combined sum, is ordered
after every shared key, and is selected only when fewer than ten shared keys
exist.  Once selected, a single-period key is indeed never dropped by the
outer merge: its row appears with `0` filled in for the missing side. -/
theorem c1_amended_top10_selection (prev curr : List (Str × ℚ)) :
    (∀ k : Str,
      k ∈ (compareRows prev curr).map (fun r => r.key) ↔ k ∈ top10 prev curr) ∧
    (10 ≤ sharedKeyCount prev curr → ∀ k ∈ top10 prev curr,
      k ∈ prev.map (fun r => r.1) ∧ k ∈ curr.map (fun r => r.1)) ∧
    (∀ k ∈ top10 prev curr, k ∉ prev.map (fun r => r.1) →
      ∃ row ∈ compareRows prev curr, row.key = k ∧ row.prev = 0) ∧
    (∀ k ∈ top10 prev curr, k ∉ curr.map (fun r => r.1) →
      ∃ row ∈ compareRows prev curr, row.key = k ∧ row.curr = 0) := by
  refine ⟨fun k => mem_compareRows_keys, top10_shared_of_ge, ?_, ?_⟩
  · intro k hk hnp
    obtain ⟨row, hrow, hkey, hprev, _⟩ := compareRows_row_form hk
    have hno : lookupQ k (groupSum (prev.filter
        (fun r => decide (r.1 ∈ top10 prev curr)))) = none :=
      lookupQ_eq_none (fun hm =>
        hnp (mem_map_fst_filter_mem.mp (mem_groupSum_keys.mp hm)).1)
    exact ⟨row, hrow, hkey, by rw [hprev, hno]; rfl⟩
  · intro k hk hnc
    obtain ⟨row, hrow, hkey, _, hcurr⟩ := compareRows_row_form hk
    have hno : lookupQ k (groupSum (curr.filter
        (fun r => decide (r.1 ∈ top10 prev curr)))) = none :=
      lookupQ_eq_none (fun hm =>
        hnc (mem_map_fst_filter_mem.mp (mem_groupSum_keys.mp hm)).1)
    exact ⟨row, hrow, hkey, by rw [hcurr, hno]; rfl⟩

/-- C1 witness: with at least ten shared keys every selected key is shared
(S0 in the ten-shared example); in the §8 scenario the single-period keys C
and B are selected and zero-filled on their missing side. -/
theorem c1_witness :
    ("S0".data ∈ tenShared.map (fun r => r.1) ∧
      "S0".data ∈ currWithZ.map (fun r => r.1)) ∧
    (∃ row ∈ compareRows scenPrev scenCurr, row.key = "C".data ∧ row.prev = 0) ∧
    (∃ row ∈ compareRows scenPrev scenCurr, row.key = "B".data ∧ row.curr = 0) :=
  ⟨(c1_amended_top10_selection tenShared currWithZ).2.1 (by decide)
      "S0".data (by decide),
   (c1_amended_top10_selection scenPrev scenCurr).2.2.1 "C".data (by decide)
      (by decide),
   (c1_amended_top10_selection scenPrev scenCurr).2.2.2 "B".data (by decide)
      (by decide)⟩
